import Mathlib

/-!
Verification development for the libaudioverse audio-graph core.

The definitions below are a shallow embedding of the C++ sources:
`node.cpp` (Node::tick, SubgraphNode::tick, the cycle check, the property
C API) and `delayline.cpp` (LavDelayLine).  Machine float samples are
modelled exactly: the scheduler is parameterised over any commutative ring
of sample values (ℚ represents every float value; the concrete witnesses
instantiate the computable integers), the delay line uses exact integers
sufficient for its failing inputs, and the reverb delay derivation uses
the reals, since the source computes with log and pow.  Buffers are lists
and the recursive graph walks fuel-indexed functions.  Code of the
repository that is only declared but not present under the sources
(makeConnection, Property internals, member initializers) is modelled from
the specification and marked as such in its doc comment.
-/

namespace Libaudioverse

/-- Total list update: writes value `v` at index `i`, padding with `d` when
the index is past the end.  This models assignment to a C++ member array
slot, which always exists. -/
def setAt {α : Type} (l : List α) (i : ℕ) (v : α) (d : α) : List α :=
  if i < l.length then l.set i v
  else l ++ List.replicate (i - l.length) d ++ [v]

/-- Errors of the public C API that the embedded operations can surface. -/
inductive LavError where
  | none
  | range
  | typeMismatch
  | propertyIsReadOnly
  | causesCycle
  | cannotConnectToProperty
  | invalidHandle
  | internal
deriving DecidableEq, Repr

/-- Property types, mirroring the Lav_PROPERTYTYPE enumeration. -/
inductive PropType where
  | int
  | float
  | double
  | str
  | float3
  | float6
  | intArray
  | floatArray
  | buffer
deriving DecidableEq, Repr

/-- One stored property of a node.  The typed value payload is collapsed to a
single rational slot, which is enough to observe whether a property changed;
the claims settled here only depend on the identity of the stored record. -/
structure LavProperty where
  ptype : PropType
  read_only : Bool
  value : ℚ
  defaultValue : ℚ
  modified : Bool
deriving DecidableEq, Repr

/-- A node as seen by the property C API: a slot-indexed property map and the
property-forwarding table.  Following the design note of the spec, a forward
is stored as a (target node id, target slot) pair resolved through the
server. -/
structure PropNode where
  props : List (ℕ × LavProperty)
  forwarded : List (ℕ × (ℕ × ℕ))
deriving DecidableEq, Repr

/-- The server-owned node table, indexed by handle. -/
structure ServerState where
  nodes : List PropNode
deriving DecidableEq, Repr

/-- Modelled from the spec: Property::reset (properties.cpp is absent from
the sources) restores the default value; the record is otherwise some
function of the old one.  The claims using it depend only on where the
result is stored, not on this body. -/
def propertyReset (p : LavProperty) : LavProperty :=
  { p with value := p.defaultValue, modified := true }

/-- Node::getProperty: a forwarded slot is redirected through the server
(a broken target is Lav_ERROR_INTERNAL), an unknown slot is
Lav_ERROR_RANGE, otherwise the stored property is produced.  The fuel
bounds the forwarding chain; exhaustion is modelled as the internal
error. -/
def getPropertyAux (sst : ServerState) : ℕ → PropNode → ℕ → Except LavError LavProperty
  | 0, _, _ => .error .internal
  | fuel + 1, node, slot =>
    match node.forwarded.lookup slot with
    | some target =>
      match sst.nodes.get? target.1 with
      | some n2 => getPropertyAux sst fuel n2 target.2
      | Option.none => .error .internal
    | Option.none =>
      match node.props.lookup slot with
      | some p => .ok p
      | Option.none => .error .range

/-- Lav_nodeResetProperty: looks the node up by handle, binds the result of
getProperty BY VALUE (the source writes `auto prop`, not `auto &prop`),
checks the read-only flag, and invokes reset on that copy.  The returned
server state is what the call leaves behind. -/
def Lav_nodeResetProperty (sst : ServerState) (fuel nodeHandle slot : ℕ) :
    LavError × ServerState :=
  match sst.nodes.get? nodeHandle with
  | Option.none => (.invalidHandle, sst)
  | some node =>
    match getPropertyAux sst fuel node slot with
    | .error e => (e, sst)
    | .ok prop =>
      if prop.read_only then (.propertyIsReadOnly, sst)
      else
        let _reset := propertyReset prop
        (.none, sst)

/-- Lav_nodeGetArrayPropertyLengthRange: mirrors the source line by line.
The guard is the source's `type != Lav_PROPERTYTYPE_FLOAT_ARRAY || type !=
Lav_PROPERTYTYPE_INT_ARRAY`; when it is not taken the function falls
through to PUB_END returning NONE without ever writing the two
out-parameters, hence the second component of the result is what the call
stored into them. -/
def Lav_nodeGetArrayPropertyLengthRange (sst : ServerState) (fuel nodeHandle slot : ℕ) :
    LavError × Option (ℕ × ℕ) :=
  match sst.nodes.get? nodeHandle with
  | Option.none => (.invalidHandle, Option.none)
  | some node =>
    match getPropertyAux sst fuel node slot with
    | .error e => (e, Option.none)
    | .ok prop =>
      let t := prop.ptype
      if t ≠ PropType.floatArray ∨ t ≠ PropType.intArray then (.typeMismatch, Option.none)
      else (.none, Option.none)

/-- Truncating conversion of a nonnegative scalar to an unsigned integer,
as performed by the C cast `(unsigned int)x`.  The delay-line scalars are
embedded as exact integers, which represent the float values the failing
inputs below exercise exactly. -/
def toUInt (q : ℤ) : ℕ := q.toNat

/-- LavDelayLine state.  Indices are the unsigned-integer members of the
C++ class; the ring buffer is the `line` array. -/
structure LavDelayLine where
  sr : ℤ
  line_length : ℕ
  line : List ℤ
  write_head : ℕ
  delay : ℕ
  new_delay : ℕ
  weight1 : ℤ
  weight2 : ℤ
  interpolation_delta : ℤ
  is_interpolating : Bool
deriving DecidableEq, Repr

/-- LavDelayLine constructor: `line_length = (unsigned)(sr*maxDelay)+1`.
Modelled from the spec: the member initializers live in the absent header;
the line starts zeroed, the write head at 0, both taps at 0, and the
crossfade inactive with weights (1, 0). -/
def mkLavDelayLine (maxDelay sr : ℤ) : LavDelayLine :=
  { sr := sr
    line_length := toUInt (sr * maxDelay) + 1
    line := List.replicate (toUInt (sr * maxDelay) + 1) 0
    write_head := 0
    delay := 0
    new_delay := 0
    weight1 := 1
    weight2 := 0
    interpolation_delta := 0
    is_interpolating := false }

/-- LavDelayLine::setDelay.  The source computes the clamped sample count
`newDelay` and then executes `new_delay = delay;`, assigning the raw
`delay` parameter (seconds, truncated by the conversion to the unsigned
member) instead of the clamped count; the local `newDelay` is dead.  The
embedding reproduces exactly that. -/
def setDelay (l : LavDelayLine) (delay : ℤ) : LavDelayLine :=
  let newDelay := toUInt (delay * l.sr)
  let _newDelayClamped := if newDelay ≥ l.line_length then l.line_length - 1 else newDelay
  { l with new_delay := toUInt delay, is_interpolating := true }

/-- LavDelayLine::setInterpolationDelta. -/
def setInterpolationDelta (l : LavDelayLine) (d : ℤ) : LavDelayLine :=
  { l with interpolation_delta := d }

/-- LavDelayLine::read: `weight1*line[delay] + weight2*line[new_delay]`,
reading the two taps as absolute indices into the line. -/
def readDelayLine (l : LavDelayLine) : ℤ :=
  l.weight1 * l.line.getD l.delay 0 + l.weight2 * l.line.getD l.new_delay 0

/-- LavDelayLine::advance: step the write head (ringmodi is % for
nonnegative arguments), store the sample, and move the crossfade weights by
the interpolation delta, snapping to (1, 0) and retargeting `delay` once
`weight2` reaches 1. -/
def advance (l : LavDelayLine) (sample : ℤ) : LavDelayLine :=
  let wh := (l.write_head + 1) % l.line_length
  let l1 := { l with write_head := wh, line := l.line.set wh sample }
  if l1.is_interpolating then
    let w1 := l1.weight1 - l1.interpolation_delta
    let w1 := if w1 < 0 then 0 else w1
    let w2 := l1.weight2 + l1.interpolation_delta
    if w2 ≥ 1 then
      { l1 with weight1 := 1, weight2 := 0, delay := l1.new_delay, is_interpolating := false }
    else
      { l1 with weight1 := w1, weight2 := w2 }
  else l1

/-- A property value for one tick: k-rate (a scalar constant) or a-rate
(one value per sample, the automation output).  The sample scalar type
α stands for the machine float; theorems hold for every commutative ring
with decidable equality (ℚ models the float values exactly), and the
concrete witnesses instantiate α with the computable integers. -/
inductive PropVal (α : Type) where
  | kRate (v : α)
  | aRate (vs : List α)
deriving DecidableEq, Repr

/-- Property::needsARate for the modelled property value. -/
def needsARate {α : Type} : PropVal α → Bool
  | .aRate _ => true
  | .kRate _ => false

/-- Property::getFloatValue(i): the per-sample read used on the a-rate
path. -/
def getFloatValueAt {α : Type} [CommRing α] (p : PropVal α) (i : ℕ) : α :=
  match p with
  | .kRate v => v
  | .aRate vs => vs.getD i 0

/-- Property::getFloatValue(): the scalar read used on the k-rate path. -/
def getFloatValue {α : Type} [CommRing α] (p : PropVal α) : α :=
  match p with
  | .kRate v => v
  | .aRate vs => vs.getD 0 0

/-- Output-gain step of Node::tick (lines 105-115): a-rate mul multiplies
sample by sample, a k-rate mul different from 1.0 runs the scalar
multiplication kernel over each output buffer, and mul = 1.0 is skipped.
The scalar kernels are modelled from the spec (elementwise multiply/add of
a scalar); kernels.cpp is absent from the sources. -/
def applyMulNode {α : Type} [CommRing α] [DecidableEq α] (p : PropVal α)
    (bufs : List (List α)) : List (List α) :=
  if needsARate p then
    bufs.map (fun ch => ch.mapIdx (fun i y => y * getFloatValueAt p i))
  else if getFloatValue p ≠ 1 then
    bufs.map (fun ch => ch.map (fun y => getFloatValue p * y))
  else bufs

/-- Output-bias step of Node::tick (lines 116-126), analogous to the gain
step with addition and the 0.0 fast path. -/
def applyAddNode {α : Type} [CommRing α] [DecidableEq α] (p : PropVal α)
    (bufs : List (List α)) : List (List α) :=
  if needsARate p then
    bufs.map (fun ch => ch.mapIdx (fun i y => y + getFloatValueAt p i))
  else if getFloatValue p ≠ 0 then
    bufs.map (fun ch => ch.map (fun y => y + getFloatValue p))
  else bufs

/-- The connection graph: entry `n` lists the dependencies of node `n`,
i.e. the nodes returned by Node::getDependencies (producers reachable via
its input connections and property-modulation connections). -/
structure Graph where
  deps : List (List ℕ)
deriving DecidableEq, Repr

/-- Dependencies of node `n`; a node outside the table has none. -/
def depsOf (g : Graph) (n : ℕ) : List ℕ := g.deps.getD n []

/-- Static per-node data read by Node::tick: the state property (PAUSED or
not), the mul and add properties, the output channel count, and an abstract
account of what this node's process() leaves in its output buffers (the
DSP kernels are black boxes implementing the node contract). -/
structure NodeCfg (α : Type) where
  paused : List Bool
  mulProp : List (PropVal α)
  addProp : List (PropVal α)
  outChannels : List ℕ
  procOut : List (List (List α))
deriving DecidableEq, Repr

def pausedOf {α : Type} (cfg : NodeCfg α) (n : ℕ) : Bool := cfg.paused.getD n false

def mulOf {α : Type} [CommRing α] (cfg : NodeCfg α) (n : ℕ) : PropVal α :=
  cfg.mulProp.getD n (.kRate 1)

def addOf {α : Type} [CommRing α] (cfg : NodeCfg α) (n : ℕ) : PropVal α :=
  cfg.addProp.getD n (.kRate 0)

def chansOf {α : Type} (cfg : NodeCfg α) (n : ℕ) : ℕ := cfg.outChannels.getD n 0

def procOutOf {α : Type} (cfg : NodeCfg α) (n : ℕ) : List (List α) := cfg.procOut.getD n []

/-- Mutable scheduler state: the server's tick counter, and per node the
last_processed tick, a count of process() invocations (the observable the
spec's dedup property names), and the output buffers (channels of
samples). -/
structure SchedState (α : Type) where
  tickCount : ℕ
  last : List ℕ
  count : List ℕ
  buf : List (List (List α))
deriving DecidableEq, Repr

def lastOf {α : Type} (s : SchedState α) (n : ℕ) : ℕ := s.last.getD n 0

def countOf {α : Type} (s : SchedState α) (n : ℕ) : ℕ := s.count.getD n 0

def bufOf {α : Type} (s : SchedState α) (n : ℕ) : List (List α) := s.buf.getD n []

/-- Node::tick (node.cpp lines 84-128), with fuel bounding the recursion
through the dependencies; `none` means the fuel ran out.  Steps in source
order: return if last_processed equals the server tick; record the tick;
zero the output buffers; return if PAUSED; tick the producers feeding the
input connections (the fold over the dependency list); run process();
apply the mul and add properties to the outputs. -/
def tickFuel {α : Type} [CommRing α] [DecidableEq α] (g : Graph) (cfg : NodeCfg α) (B : ℕ) :
    ℕ → ℕ → SchedState α → Option (SchedState α)
  | 0, _, _ => none
  | fuel + 1, root, s =>
    if lastOf s root = s.tickCount then some s
    else
      let s1 : SchedState α := { s with last := setAt s.last root s.tickCount 0 }
      let zeroed := setAt s1.buf root (List.replicate (chansOf cfg root) (List.replicate B 0)) []
      let s2 : SchedState α := { s1 with buf := zeroed }
      if pausedOf cfg root then some s2
      else
        match (depsOf g root).foldl
            (fun acc d => Option.bind acc (fun st => tickFuel g cfg B fuel d st)) (some s2) with
        | none => none
        | some s3 =>
          let newCount := setAt s3.count root (countOf s3 root + 1) 0
          let processed := setAt s3.buf root (procOutOf cfg root) []
          let s4 : SchedState α := { s3 with count := newCount, buf := processed }
          let gained := setAt s4.buf root (applyAddNode (addOf cfg root) (applyMulNode (mulOf cfg root) (bufOf s4 root))) []
          let s5 : SchedState α := { s4 with buf := gained }
          some s5

/-- The per-input-connection loop of Node::tick: each connection's add
ticks the producers feeding it, in order.  This is exactly the fold that
tickFuel runs over the dependency list. -/
def tickDeps {α : Type} [CommRing α] [DecidableEq α] (g : Graph) (cfg : NodeCfg α) (B : ℕ)
    (fuel : ℕ) (l : List ℕ) (s : SchedState α) : Option (SchedState α) :=
  l.foldl (fun acc d => Option.bind acc (fun st => tickFuel g cfg B fuel d st)) (some s)

/-- State of a SubgraphNode as seen by SubgraphNode::tick: its
last_processed tick, the state property, whether an internal output node is
designated, and that internal node's output buffers (which the subgraph
presents as its own). -/
structure SubgraphState (α : Type) where
  last : ℕ
  paused : Bool
  hasOutput : Bool
  outBuf : List α
deriving DecidableEq, Repr

/-- SubgraphNode::tick (node.cpp lines 350-383): dedup on last_processed,
return if PAUSED (with no zeroing of any buffer), return if no internal
output node, otherwise tick the internal output node (abstracted as
`internalTick`) and apply mul and add on top of its buffers. -/
def subgraphTick {α : Type} [CommRing α] [DecidableEq α] (tickCount : ℕ)
    (mulProp addProp : PropVal α)
    (internalTick : SubgraphState α → SubgraphState α) (st : SubgraphState α) : SubgraphState α :=
  if st.last = tickCount then st
  else
    let st1 := { st with last := tickCount }
    if st1.paused then st1
    else if st1.hasOutput = false then st1
    else
      let st2 := internalTick st1
      let newBuf := (applyAddNode addProp (applyMulNode mulProp [st2.outBuf])).getD 0 []
      { st2 with outBuf := newBuf }

/-- doesEdgePreserveAcyclicity (node.cpp lines 27-39): true when connecting
an output of `start` to an input of `e` keeps the graph acyclic.  Returns
false when `start = e`, otherwise loops over the dependencies of `start`
recursively, returning false as soon as one recursive call does; `none`
models fuel exhaustion of the unbounded C++ recursion. -/
def dfs (g : Graph) : ℕ → ℕ → ℕ → Option Bool
  | 0, _, _ => none
  | fuel + 1, start, e =>
    if start = e then some false
    else
      (depsOf g start).foldl
        (fun acc n =>
          match acc with
          | none => none
          | some false => some false
          | some true => dfs g fuel n e) (some true)

/-- The loop over `start->getDependencies()` inside
doesEdgePreserveAcyclicity: exactly the fold that dfs runs. -/
def dfsList (g : Graph) (fuel : ℕ) (l : List ℕ) (e : ℕ) : Option Bool :=
  l.foldl
    (fun acc n =>
      match acc with
      | none => none
      | some false => some false
      | some true => dfs g fuel n e) (some true)

/-- Modelled from the spec: makeConnection (connections.cpp is absent from
the sources) pairs one output side with one input side, adding exactly that
edge; here the producer `s` joins the dependency list of the consumer
`e`. -/
def makeConnection (g : Graph) (s e : ℕ) : Graph :=
  ⟨setAt g.deps e (depsOf g e ++ [s]) []⟩

/-- Node::connect (node.cpp lines 207-212): run the cycle check and raise
Lav_ERROR_CAUSES_CYCLE when it fails (leaving the graph as it was),
otherwise make the connection. -/
def connectOp (g : Graph) (fuel s e : ℕ) : Option (LavError × Graph) :=
  match dfs g fuel s e with
  | none => none
  | some false => some (.causesCycle, g)
  | some true => some (.none, makeConnection g s e)

/-- A topological ranking of the dependency graph: every dependency of a
node ranks strictly below the node. -/
def Ranked (g : Graph) (rank : ℕ → ℕ) : Prop :=
  ∀ n < g.deps.length, ∀ m ∈ depsOf g n, rank m < rank n

instance (g : Graph) (rank : ℕ → ℕ) : Decidable (Ranked g rank) := by
  unfold Ranked; infer_instance

/-- Acyclicity of the dependency graph, witnessed by a topological
ranking. -/
def Acyclic (g : Graph) : Prop := ∃ rank : ℕ → ℕ, Ranked g rank

/-- Node `e` is `s` itself or a direct or transitive dependency of `s`. -/
def Reaches (g : Graph) (s e : ℕ) : Prop :=
  Relation.ReflTransGen (fun a b => b ∈ depsOf g a) s e

/-- The table of pairwise-coprime integers used for the late-reflections
delay-line lengths (node.cpp lines 835-840). -/
def coprimes : List ℕ := [3, 4, 5, 7, 9, 11, 13, 16, 17, 19, 23, 27, 29, 31, 35, 37]

/-- The unclamped delay (seconds) of line `i` as recompute derives it:
`prime^round(log(baseDelay*sr)/log(prime)) / sr`, with the prime read at
index `(i % 4) * 4 + i / 4` of the coprime table. -/
noncomputable def lineDelayRaw (sr baseDelay : ℝ) (i : ℕ) : ℝ :=
  let prime : ℕ := coprimes.getD ((i % 4) * 4 + i / 4) 0
  let powerApprox : ℝ := Real.log (baseDelay * sr) / Real.log prime
  let neededPower : ℤ := round powerApprox
  let delayInSamples : ℝ := (prime : ℝ) ^ neededPower
  delayInSamples / sr

/-- The loop body of LateReflectionsNode::recompute (lines 971-981): the
derived delay clamped to at most one second. -/
noncomputable def lineDelay (sr baseDelay : ℝ) (i : ℕ) : ℝ :=
  min (lineDelayRaw sr baseDelay i) 1

/-- The base delay of recompute: `0.003 + (1 - density) * 0.025`. -/
noncomputable def baseDelayOf (density : ℝ) : ℝ := 0.003 + (1 - density) * 0.025

/-- The delay table after the loop of recompute: entry `i` holds the
clamped delay of line `i`. -/
noncomputable def delaysStage0 (sr density : ℝ) : List ℝ :=
  List.ofFn (fun i : Fin 16 => lineDelay sr (baseDelayOf density) i)

/-- The delay table after `std::swap(delays[0], delays[15])`. -/
noncomputable def delaysStage1 (sr density : ℝ) : List ℝ :=
  ((delaysStage0 sr density).set 0 ((delaysStage0 sr density).getD 15 0)).set 15
    ((delaysStage0 sr density).getD 0 0)

/-- The delay table LateReflectionsNode::recompute (lines 961-986) passes
to the FDN: the sixteen clamped line delays, then
`std::swap(delays[0], delays[15]); std::swap(delays[1], delays[14])`. -/
noncomputable def recomputeDelays (sr density : ℝ) : List ℝ :=
  ((delaysStage1 sr density).set 1 ((delaysStage1 sr density).getD 14 0)).set 14
    ((delaysStage1 sr density).getD 1 0)

/-- The index permutation that exchanges positions (0,15) and (1,14). -/
def swapPerm (i : ℕ) : ℕ :=
  if i = 0 then 15 else if i = 15 then 0 else if i = 1 then 14 else if i = 14 then 1 else i

/-- The delay table as the specification words it: derive the sixteen
delays as `prime^round(log_prime(base_delay*sr))` samples divided by `sr`
in the order `coprimes[(i mod 4)*4 + i/4]`, swap entries (0,15) and
(1,14), then clamp every resulting delay to at most one second. -/
noncomputable def specDelays (sr density : ℝ) : List ℝ :=
  List.ofFn (fun i : Fin 16 =>
    min (lineDelayRaw sr (baseDelayOf density) (swapPerm i)) 1)

/-- Diamond fan-out example: node 0 feeds nodes 1 and 2, which both feed
node 3 (the node connected to the server's final connection). -/
def diamondG : Graph := ⟨[[], [0], [0], [1, 2]]⟩

def diamondCfg : NodeCfg ℤ :=
  ⟨[false, false, false, false],
   [.kRate 1, .kRate 1, .kRate 1, .kRate 1],
   [.kRate 0, .kRate 0, .kRate 0, .kRate 0],
   [1, 1, 1, 1],
   [[[0]], [[0]], [[0]], [[0]]]⟩

def diamondS0 : SchedState ℤ := ⟨1, [0, 0, 0, 0], [0, 0, 0, 0], [[[0]], [[0]], [[0]], [[0]]]⟩

def diamondS1 : SchedState ℤ := (tickFuel diamondG diamondCfg 1 3 3 diamondS0).getD diamondS0

/-- One-node example graph used by the concrete witnesses. -/
def singleG : Graph := ⟨[[]]⟩

def pausedCfg : NodeCfg ℤ := ⟨[true], [.kRate 1], [.kRate 0], [1], [[[5, 5]]]⟩

def singleS0 : SchedState ℤ := ⟨1, [0], [0], [[[4, 4]]]⟩

def pausedS1 : SchedState ℤ := (tickFuel singleG pausedCfg 2 1 0 singleS0).getD singleS0

def gainCfg : NodeCfg ℤ := ⟨[false], [.kRate 2], [.kRate 3], [1], [[[5, 7]]]⟩

def gainS1 : SchedState ℤ := (tickFuel singleG gainCfg 2 1 0 singleS0).getD singleS0

/-- Chain example A(0) feeds B(1) feeds C(2), as in the spec's cycle
scenario. -/
def chainG : Graph := ⟨[[], [0], [1]]⟩

def chainCfg : NodeCfg ℤ :=
  ⟨[false, false, false],
   [.kRate 1, .kRate 1, .kRate 1],
   [.kRate 0, .kRate 0, .kRate 0],
   [1, 1, 1],
   [[[0]], [[0]], [[0]]]⟩

def chainS0 : SchedState ℤ := ⟨1, [0, 0, 0], [0, 0, 0], [[[0]], [[0]], [[0]]]⟩

/-- Example server: one node whose slot 5 holds a float-array property and
whose slot 7 holds an ordinary float property. -/
def exampleServer : ServerState :=
  ⟨[⟨[(5, ⟨PropType.floatArray, false, 0, 0, false⟩),
      (7, ⟨PropType.float, false, 2, 1, false⟩)], []⟩]⟩

/-- Delay-line run for the idempotence check: sr = 3, max delay 2 seconds
(line length 7), a single setDelay(2), delta 1 (large enough to finish the
crossfade on the first advance), then nine advances writing the samples
1, 2, ..., 9. -/
def delayLineDemo : LavDelayLine :=
  (List.range 9).foldl (fun st k => advance st ((k : ℤ) + 1))
    (setInterpolationDelta (setDelay (mkLavDelayLine 2 3) 2) 1)

/-- The subgraph counterexample state: a paused subgraph whose internal
output node's buffer still holds the previous block's sample 1. -/
def subgraphDemo : SubgraphState ℤ := ⟨0, true, true, [1]⟩

/-- Dedup invariant relating a scheduler state to any state a tick walk
can leave behind within the same server tick: the tick counter is
untouched; a node already marked with the current tick is never reprocessed
(its mark stays and its process count is frozen); no node gains more than
one process() invocation; and a node whose count did change carries the
current tick mark. -/
def TInv {α : Type} (s s2 : SchedState α) : Prop :=
  s2.tickCount = s.tickCount ∧
  ∀ n : ℕ,
    (lastOf s n = s.tickCount → lastOf s2 n = s.tickCount ∧ countOf s2 n = countOf s n) ∧
    countOf s2 n ≤ countOf s n + 1 ∧
    (countOf s2 n ≠ countOf s n → lastOf s2 n = s.tickCount)

theorem getD_setAt_self {α : Type} (l : List α) (i : ℕ) (v d : α) :
    (setAt l i v d).getD i d = v := by
  unfold setAt
  split
  next h =>
    rw [List.getD_eq_getElem?_getD, List.getElem?_set_self h]
    rfl
  next h =>
    have h1 : l.length ≤ i := Nat.le_of_not_lt h
    have hlen : (l ++ List.replicate (i - l.length) d).length = i := by
      simp only [List.length_append, List.length_replicate]
      omega
    rw [List.getD_eq_getElem?_getD, List.getElem?_append_right (le_of_eq hlen)]
    simp [hlen]

theorem getD_setAt_ne {α : Type} (l : List α) {i j : ℕ} (v d : α) (hij : i ≠ j) :
    (setAt l i v d).getD j d = l.getD j d := by
  unfold setAt
  split
  next h =>
    rw [List.getD_eq_getElem?_getD, List.getElem?_set_ne hij, ← List.getD_eq_getElem?_getD]
  next h =>
    have h1 : l.length ≤ i := Nat.le_of_not_lt h
    have hlen : (l ++ List.replicate (i - l.length) d).length = i := by
      simp only [List.length_append, List.length_replicate]
      omega
    by_cases hj : j < l.length
    · rw [List.getD_eq_getElem?_getD, List.getElem?_append, if_pos (by rw [hlen]; omega),
        List.getElem?_append, if_pos hj, ← List.getD_eq_getElem?_getD]
    · have hj1 : l.length ≤ j := Nat.le_of_not_lt hj
      rw [List.getD_eq_default _ _ hj1, List.getD_eq_getElem?_getD]
      by_cases hr : j < i
      · rw [List.getElem?_append, if_pos (by rw [hlen]; exact hr),
          List.getElem?_append_right hj1, List.getElem?_replicate, if_pos (by omega)]
        rfl
      · rw [List.getElem?_append_right (by rw [hlen]; omega)]
        rw [List.getElem?_eq_none (by simp only [List.length_singleton, hlen]; omega)]
        rfl

/-- C5: the array-property length-range operation never succeeds and never
populates its out-parameters.  For every server, handle and slot the call
leaves the out-parameters unwritten, and on the failing input — a node
whose slot 5 property IS a float-array — it raises TYPE_MISMATCH, because
the guard `type != FLOAT_ARRAY || type != INT_ARRAY` is true for every
type.  This contradicts the claim that float-array and int-array
properties succeed with NONE and the length range. -/
theorem c5_length_range_always_type_mismatch :
    (∀ sst fuel nodeHandle slot,
        (Lav_nodeGetArrayPropertyLengthRange sst fuel nodeHandle slot).2 = Option.none) ∧
    Lav_nodeGetArrayPropertyLengthRange exampleServer 9 0 5 =
      (LavError.typeMismatch, Option.none) ∧
    ((exampleServer.nodes.get? 0).bind (fun n => n.props.lookup 5)).map LavProperty.ptype =
      some PropType.floatArray := by
  refine ⟨?_, by decide, by decide⟩
  intro sst fuel nodeHandle slot
  unfold Lav_nodeGetArrayPropertyLengthRange
  cases h1 : sst.nodes.get? nodeHandle with
  | none => rfl
  | some node =>
    dsimp only
    cases h2 : getPropertyAux sst fuel node slot with
    | error e => rfl
    | ok prop =>
      have h3 : prop.ptype ≠ PropType.floatArray ∨ prop.ptype ≠ PropType.intArray := by
        by_cases hfa : prop.ptype = PropType.floatArray
        · exact Or.inr (by rw [hfa]; decide)
        · exact Or.inl hfa
      simp [h3]

/-- C6: setDelay on the delay line does NOT store the clamped sample count.
With sr = 3 and a one-second line (line_length = 4), setDelay(2) should
store min((unsigned)(2*3), line_length-1) = 3, but the source assigns the
raw seconds parameter to the unsigned member (`new_delay = delay;`), so
the stored tap is (unsigned)2 = 2; the computed local `newDelay` is dead.
The crossfade flag is set and the weights are left unchanged, as the
claim's second half says. -/
theorem c6_setDelay_stores_truncated_seconds :
    (setDelay (mkLavDelayLine 1 3) 2).new_delay = 2 ∧
    min (toUInt ((2 : ℤ) * 3)) ((mkLavDelayLine 1 3).line_length - 1) = 3 ∧
    (setDelay (mkLavDelayLine 1 3) 2).new_delay ≠ 3 ∧
    (setDelay (mkLavDelayLine 1 3) 2).is_interpolating = true ∧
    (setDelay (mkLavDelayLine 1 3) 2).weight1 = (mkLavDelayLine 1 3).weight1 ∧
    (setDelay (mkLavDelayLine 1 3) 2).weight2 = (mkLavDelayLine 1 3).weight2 := by
  decide

/-- C7: after a single setDelay(2) on a line with sr = 3 (so
round(d*sr) = 6) and a delta completing the crossfade in one advance, a
read after nine advances (writing 1, 2, ..., 9) returns 9 — the cell at
the absolute index new_delay = trunc(2) = 2, which the write head
overwrote on the ninth advance — and not the sample written six advances
earlier, which is 3.  The claimed identity read = line[t - round(d*sr)]
fails on the code. -/
theorem c7_read_is_not_round_delayed :
    readDelayLine delayLineDemo = 9 ∧
    toUInt ((2 : ℤ) * 3) = 6 ∧
    ((List.range 9).map (fun k => (k : ℤ) + 1)).getD (9 - 6 - 1) 0 = 3 ∧
    readDelayLine delayLineDemo ≠ 3 := by
  decide

/-- C10: Lav_nodeResetProperty binds the property by value and resets only
that copy, so any call that returns NONE leaves the server state — in
particular the addressed node's stored property, its value and flags —
unchanged. -/
theorem c10_resetProperty_leaves_node_unchanged :
    ∀ sst fuel nodeHandle slot,
      (Lav_nodeResetProperty sst fuel nodeHandle slot).1 = LavError.none →
      (Lav_nodeResetProperty sst fuel nodeHandle slot).2 = sst := by
  intro sst fuel nodeHandle slot _
  unfold Lav_nodeResetProperty
  split
  · rfl
  · split
    · rfl
    · split <;> rfl

theorem c10_witness :
    (Lav_nodeResetProperty exampleServer 9 0 7).1 = LavError.none ∧
    (Lav_nodeResetProperty exampleServer 9 0 7).2 = exampleServer :=
  ⟨by decide, c10_resetProperty_leaves_node_unchanged exampleServer 9 0 7 (by decide)⟩

/-- C2 counterexample: a PAUSED subgraph node does not emit zeros.  With
the internal output node's buffer holding the previous block's sample 1,
SubgraphNode::tick returns from its paused check without zeroing anything,
so the subgraph's output buffer (the internal node's buffer) still reads
1, not 0. -/
theorem c2_counterexample_paused_subgraph_not_zero :
    (subgraphTick 1 (.kRate 1) (.kRate 0) id subgraphDemo).paused = true ∧
    (subgraphTick 1 (.kRate 1) (.kRate 0) id subgraphDemo).outBuf = [1] ∧
    (subgraphTick 1 (.kRate 1) (.kRate 0) id subgraphDemo).outBuf ≠
      List.replicate 1 0 := by
  decide

theorem TInv_refl {α : Type} (s : SchedState α) : TInv s s :=
  ⟨rfl, fun _ => ⟨fun h => ⟨h, rfl⟩, Nat.le_succ _, fun h => absurd rfl h⟩⟩

theorem TInv_trans {α : Type} {s t u : SchedState α} (h1 : TInv s t) (h2 : TInv t u) :
    TInv s u := by
  obtain ⟨ht, h1⟩ := h1
  obtain ⟨hu, h2⟩ := h2
  refine ⟨by rw [hu, ht], fun n => ⟨?_, ?_, ?_⟩⟩
  · intro hl
    obtain ⟨hl2, hc2⟩ := (h1 n).1 hl
    obtain ⟨hl3, hc3⟩ := (h2 n).1 (by rw [ht]; exact hl2)
    exact ⟨by rw [← ht]; exact hl3, by rw [hc3]; exact hc2⟩
  · by_cases hc : countOf t n = countOf s n
    · calc countOf u n ≤ countOf t n + 1 := (h2 n).2.1
        _ = countOf s n + 1 := by rw [hc]
    · have hl : lastOf t n = t.tickCount := by
        rw [ht]; exact (h1 n).2.2 hc
      rw [((h2 n).1 hl).2]
      exact (h1 n).2.1
  · intro hne
    by_cases hc : countOf u n = countOf t n
    · have hts : countOf t n ≠ countOf s n := by rw [← hc]; exact hne
      have hl : lastOf t n = t.tickCount := by rw [ht]; exact (h1 n).2.2 hts
      exact (((h2 n).1 hl).1).trans ht
    · exact ((h2 n).2.2 hc).trans ht

theorem TInv_mark {α : Type} (s : SchedState α) (root : ℕ) (b : List (List (List α)))
    (h : lastOf s root ≠ s.tickCount) :
    TInv s ⟨s.tickCount, setAt s.last root s.tickCount 0, s.count, b⟩ := by
  refine ⟨rfl, fun n => ⟨?_, Nat.le_succ _, fun hne => absurd rfl hne⟩⟩
  intro hn
  have hne : root ≠ n := fun he => h (he ▸ hn)
  refine ⟨?_, rfl⟩
  show (setAt s.last root s.tickCount 0).getD n 0 = s.tickCount
  rw [getD_setAt_ne _ _ _ hne]
  exact hn

theorem TInv_frame {α : Type} (s s3 : SchedState α) (root : ℕ)
    (b b2 : List (List (List α)))
    (hfresh : lastOf s root ≠ s.tickCount)
    (hinv : TInv (⟨s.tickCount, setAt s.last root s.tickCount 0, s.count, b⟩ : SchedState α) s3) :
    TInv s ⟨s3.tickCount, s3.last, setAt s3.count root (countOf s3 root + 1) 0, b2⟩ := by
  obtain ⟨htc, hinv⟩ := hinv
  have hl2root : (setAt s.last root s.tickCount 0).getD root 0 = s.tickCount :=
    getD_setAt_self _ _ _ _
  have hroot := (hinv root).1 hl2root
  refine ⟨htc, fun n => ⟨?_, ?_, ?_⟩⟩
  · intro hn
    have hne : root ≠ n := fun he => hfresh (he ▸ hn)
    have hl2n : (setAt s.last root s.tickCount 0).getD n 0 = s.tickCount := by
      rw [getD_setAt_ne _ _ _ hne]; exact hn
    obtain ⟨hl3, hc3⟩ := (hinv n).1 hl2n
    refine ⟨hl3, ?_⟩
    show (setAt s3.count root (countOf s3 root + 1) 0).getD n 0 = countOf s n
    rw [getD_setAt_ne _ _ _ hne]
    exact hc3
  · by_cases hne : root = n
    · subst hne
      show (setAt s3.count root (countOf s3 root + 1) 0).getD root 0 ≤ countOf s root + 1
      rw [getD_setAt_self, hroot.2]
      exact Nat.le_refl _
    · show (setAt s3.count root (countOf s3 root + 1) 0).getD n 0 ≤ countOf s n + 1
      rw [getD_setAt_ne _ _ _ hne]
      exact (hinv n).2.1
  · intro hne2
    by_cases hne : root = n
    · subst hne
      exact hroot.1
    · have : (setAt s3.count root (countOf s3 root + 1) 0).getD n 0 = countOf s3 n :=
        getD_setAt_ne _ _ _ hne
      have hc : countOf s3 n ≠ countOf s n := by
        rw [← this]; exact hne2
      exact (hinv n).2.2 hc

theorem foldl_bind_none {α : Type} [CommRing α] [DecidableEq α]
    (g : Graph) (cfg : NodeCfg α) (B fuel : ℕ) (l : List ℕ) :
    l.foldl (fun acc d => Option.bind acc (fun st => tickFuel g cfg B fuel d st)) none = none := by
  induction l with
  | nil => rfl
  | cons d rest ih => exact ih

theorem tickDeps_nil {α : Type} [CommRing α] [DecidableEq α]
    (g : Graph) (cfg : NodeCfg α) (B fuel : ℕ) (s : SchedState α) :
    tickDeps g cfg B fuel [] s = some s := rfl

theorem tickDeps_cons {α : Type} [CommRing α] [DecidableEq α]
    (g : Graph) (cfg : NodeCfg α) (B fuel d : ℕ) (rest : List ℕ) (s : SchedState α) :
    tickDeps g cfg B fuel (d :: rest) s =
      match tickFuel g cfg B fuel d s with
      | none => none
      | some s2 => tickDeps g cfg B fuel rest s2 := by
  show List.foldl _ (Option.bind (some s) fun st => tickFuel g cfg B fuel d st) rest = _
  cases h : tickFuel g cfg B fuel d s with
  | none =>
    rw [show (Option.bind (some s) fun st => tickFuel g cfg B fuel d st) =
      tickFuel g cfg B fuel d s from rfl, h]
    exact foldl_bind_none g cfg B fuel rest
  | some s2 =>
    rw [show (Option.bind (some s) fun st => tickFuel g cfg B fuel d st) =
      tickFuel g cfg B fuel d s from rfl, h]
    rfl

theorem tick_TInv {α : Type} [CommRing α] [DecidableEq α]
    (g : Graph) (cfg : NodeCfg α) (B : ℕ) :
    ∀ fuel, (∀ root s s', tickFuel g cfg B fuel root s = some s' → TInv s s') ∧
      (∀ l s s', tickDeps g cfg B fuel l s = some s' → TInv s s') := by
  intro fuel
  induction fuel with
  | zero =>
    constructor
    · intro root s s' h
      simp [tickFuel] at h
    · intro l s s' h
      cases l with
      | nil =>
        rw [tickDeps_nil] at h
        obtain rfl : s = s' := by simpa using h
        exact TInv_refl _
      | cons d rest =>
        rw [tickDeps_cons] at h
        simp [tickFuel] at h
  | succ f ih =>
    have h1 : ∀ root s s', tickFuel g cfg B (f + 1) root s = some s' → TInv s s' := by
      intro root s s' h
      rw [tickFuel] at h
      by_cases hl : lastOf s root = s.tickCount
      · rw [if_pos hl] at h
        obtain rfl : s = s' := by simpa using h
        exact TInv_refl _
      · rw [if_neg hl] at h
        dsimp only at h
        by_cases hp : pausedOf cfg root = true
        · rw [if_pos hp] at h
          obtain rfl := (Option.some.injEq _ _).mp h
          exact TInv_mark s root _ hl
        · rw [if_neg hp] at h
          split at h
          · exact absurd h (by simp)
          · obtain rfl := (Option.some.injEq _ _).mp h
            next s3 heq =>
              exact TInv_frame s s3 root _ _ hl (ih.2 _ _ _ heq)
    refine ⟨h1, ?_⟩
    intro l
    induction l with
    | nil =>
      intro s s' h
      rw [tickDeps_nil] at h
      obtain rfl : s = s' := by simpa using h
      exact TInv_refl _
    | cons d rest ihl =>
      intro s s' h
      rw [tickDeps_cons] at h
      split at h
      · exact absurd h (by simp)
      · next s2 heq =>
          exact TInv_trans (h1 d s s2 heq) (ihl s2 s' h)

/-- C1: within one server tick a node's process() runs at most once.  For
every graph, configuration and fuel, a completed tick walk raises no
node's process count by more than one, and a node already carrying the
current tick mark is not processed at all (Node::tick returns immediately,
the mark being set before any work).  In the diamond graph — node 0
feeding nodes 1 and 2, both feeding node 3 — one tick rooted at node 3
invokes process() of the shared node 0 exactly once. -/
theorem c1_process_at_most_once :
    (∀ {α : Type} [CommRing α] [DecidableEq α] (g : Graph) (cfg : NodeCfg α)
      (B fuel root : ℕ) (s s' : SchedState α),
      tickFuel g cfg B fuel root s = some s' →
      ∀ n, countOf s' n ≤ countOf s n + 1 ∧
        (lastOf s n = s.tickCount → countOf s' n = countOf s n)) ∧
    ((tickFuel diamondG diamondCfg 1 3 3 diamondS0).map (fun t => countOf t 0) = some 1 ∧
      (tickFuel diamondG diamondCfg 1 3 3 diamondS0).map (fun t => countOf t 3) = some 1) := by
  constructor
  · intro α _ _ g cfg B fuel root s s' h n
    have hv := (tick_TInv g cfg B fuel).1 root s s' h
    exact ⟨(hv.2 n).2.1, fun hl => ((hv.2 n).1 hl).2⟩
  · exact ⟨by decide, by decide⟩

theorem c1_witness :
    tickFuel diamondG diamondCfg 1 3 3 diamondS0 = some diamondS1 ∧
    (countOf diamondS1 0 ≤ countOf diamondS0 0 + 1 ∧
      (lastOf diamondS0 0 = diamondS0.tickCount → countOf diamondS1 0 = countOf diamondS0 0)) :=
  ⟨by decide,
   c1_process_at_most_once.1 diamondG diamondCfg 1 3 3 diamondS0 diamondS1 (by decide) 0⟩

/-- C2 (amended): a PAUSED base node's tick zeroes all of its output
buffers and returns without invoking process(), so it emits exactly zero
samples on every output channel and no process count changes; a PAUSED
subgraph node's tick, however, returns after recording the tick mark
without zeroing anything and without ticking the internal output node, so
its output buffers (the internal output node's buffers) keep the previous
block's contents. -/
theorem c2_paused_shortcircuit :
    (∀ {α : Type} [CommRing α] [DecidableEq α] (g : Graph) (cfg : NodeCfg α)
      (B fuel root : ℕ) (s s' : SchedState α),
      pausedOf cfg root = true → lastOf s root ≠ s.tickCount →
      tickFuel g cfg B (fuel + 1) root s = some s' →
      bufOf s' root = List.replicate (chansOf cfg root) (List.replicate B 0) ∧
      s'.count = s.count ∧ s'.tickCount = s.tickCount) ∧
    (∀ {α : Type} [CommRing α] [DecidableEq α] (T : ℕ) (mp ap : PropVal α)
      (itick : SubgraphState α → SubgraphState α) (st : SubgraphState α),
      st.paused = true → st.last ≠ T →
      subgraphTick T mp ap itick st = { st with last := T }) := by
  constructor
  · intro α _ _ g cfg B fuel root s s' hp hl h
    rw [tickFuel] at h
    rw [if_neg hl] at h
    dsimp only at h
    rw [if_pos hp] at h
    obtain rfl := (Option.some.injEq _ _).mp h
    refine ⟨?_, rfl, rfl⟩
    show (setAt s.buf root (List.replicate (chansOf cfg root) (List.replicate B 0)) []).getD root [] = _
    exact getD_setAt_self _ _ _ _
  · intro α _ _ T mp ap itick st hp hl
    unfold subgraphTick
    rw [if_neg hl]
    dsimp only
    rw [if_pos hp]

theorem c2_witness :
    pausedOf pausedCfg 0 = true ∧ lastOf singleS0 0 ≠ singleS0.tickCount ∧
    tickFuel singleG pausedCfg 2 1 0 singleS0 = some pausedS1 ∧
    (bufOf pausedS1 0 = List.replicate (chansOf pausedCfg 0) (List.replicate 2 0) ∧
      pausedS1.count = singleS0.count ∧ pausedS1.tickCount = singleS0.tickCount) :=
  ⟨by decide, by decide, by decide,
   c2_paused_shortcircuit.1 singleG pausedCfg 2 0 0 singleS0 pausedS1
     (by decide) (by decide) (by decide)⟩

theorem map_map_getD {α : Type} (f : α → α) (y : List (List α)) (j k : ℕ) (z : α)
    (hj : j < y.length) (hk : k < (y.getD j []).length) :
    ((y.map (fun ch => ch.map f)).getD j []).getD k z = f ((y.getD j []).getD k z) := by
  have hj2 : j < (y.map (fun ch => ch.map f)).length := by simpa using hj
  rw [List.getD_eq_getElem _ _ hj2, List.getElem_map]
  rw [List.getD_eq_getElem _ _ hj] at hk ⊢
  have hk2 : k < (y[j].map f).length := by simpa using hk
  rw [List.getD_eq_getElem _ _ hk2, List.getElem_map, List.getD_eq_getElem _ _ hk]

theorem map_map_length {α : Type} (f : α → α) (y : List (List α)) (j : ℕ)
    (hj : j < y.length) :
    ((y.map (fun ch => ch.map f)).getD j []).length = (y.getD j []).length := by
  have hj2 : j < (y.map (fun ch => ch.map f)).length := by simpa using hj
  rw [List.getD_eq_getElem _ _ hj2, List.getElem_map, List.getD_eq_getElem _ _ hj]
  simp

theorem applyMulAdd_kRate_getD {α : Type} [CommRing α] [DecidableEq α] (m a : α)
    (y : List (List α)) (j k : ℕ) (hj : j < y.length) (hk : k < (y.getD j []).length) :
    ((applyAddNode (.kRate a) (applyMulNode (.kRate m) y)).getD j []).getD k 0 =
      m * ((y.getD j []).getD k 0) + a := by
  unfold applyAddNode applyMulNode
  simp only [needsARate, getFloatValue, Bool.false_eq_true, if_false]
  by_cases hm : m = (1 : α)
  · by_cases ha : a = (0 : α)
    · simp only [hm, ha, ne_eq, not_true_eq_false, if_false]
      rw [one_mul, add_zero]
    · simp only [hm, ha, ne_eq, not_true_eq_false, not_false_eq_true, if_false, if_true]
      rw [map_map_getD _ _ _ _ _ hj hk, one_mul]
  · by_cases ha : a = (0 : α)
    · simp only [hm, ha, ne_eq, not_true_eq_false, not_false_eq_true, if_false, if_true]
      rw [map_map_getD _ _ _ _ _ hj hk, add_zero]
    · simp only [hm, ha, ne_eq, not_false_eq_true, if_true]
      have hj2 : j < (y.map (fun ch => ch.map (fun v => m * v))).length := by simpa using hj
      have hk2 : k < ((y.map (fun ch => ch.map (fun v => m * v))).getD j []).length := by
        rw [map_map_length _ _ _ hj]
        exact hk
      rw [map_map_getD _ _ _ _ _ hj2 hk2, map_map_getD _ _ _ _ _ hj hk]

/-- C3: with k-rate mul = m and k-rate add = a (any constants, the skipped
fast paths m = 1 and a = 0 included), after tick() every output sample of
every channel equals m times the value process() left in the buffer plus
a, the multiplication being applied before the addition. -/
theorem c3_gain_bias :
    ∀ {α : Type} [CommRing α] [DecidableEq α] (g : Graph) (cfg : NodeCfg α)
      (B fuel root : ℕ) (s s' : SchedState α) (m a : α),
      mulOf cfg root = .kRate m → addOf cfg root = .kRate a →
      pausedOf cfg root = false → lastOf s root ≠ s.tickCount →
      tickFuel g cfg B (fuel + 1) root s = some s' →
      ∀ j k, j < (procOutOf cfg root).length →
        k < ((procOutOf cfg root).getD j []).length →
        ((bufOf s' root).getD j []).getD k 0 =
          m * (((procOutOf cfg root).getD j []).getD k 0) + a := by
  intro α _ _ g cfg B fuel root s s' m a hm ha hp hl h j k hj hk
  rw [tickFuel] at h
  rw [if_neg hl] at h
  dsimp only at h
  rw [if_neg (by simp [hp])] at h
  split at h
  · exact absurd h (by simp)
  · next s3 heq =>
      obtain rfl := (Option.some.injEq _ _).mp h
      show ((List.getD (setAt _ root
        (applyAddNode (addOf cfg root) (applyMulNode (mulOf cfg root) _)) []) root []).getD j
          []).getD k 0 = _
      rw [getD_setAt_self]
      have hb4 : (List.getD (setAt s3.buf root (procOutOf cfg root) []) root []) =
          procOutOf cfg root := getD_setAt_self _ _ _ _
      rw [show bufOf (⟨s3.tickCount, s3.last, setAt s3.count root (countOf s3 root + 1) 0,
        setAt s3.buf root (procOutOf cfg root) []⟩ : SchedState α) root =
          (setAt s3.buf root (procOutOf cfg root) []).getD root [] from rfl]
      rw [hb4, hm, ha]
      exact applyMulAdd_kRate_getD m a _ j k hj hk

theorem c3_witness :
    mulOf gainCfg 0 = PropVal.kRate 2 ∧ addOf gainCfg 0 = PropVal.kRate 3 ∧
    pausedOf gainCfg 0 = false ∧ lastOf singleS0 0 ≠ singleS0.tickCount ∧
    tickFuel singleG gainCfg 2 1 0 singleS0 = some gainS1 ∧
    ((bufOf gainS1 0).getD 0 []).getD 0 0 =
      2 * (((procOutOf gainCfg 0).getD 0 []).getD 0 0) + 3 :=
  ⟨by decide, by decide, by decide, by decide, by decide,
   c3_gain_bias singleG gainCfg 2 0 0 singleS0 gainS1 2 3 (by decide) (by decide) (by decide)
     (by decide) (by decide) 0 0 (by decide) (by decide)⟩

theorem dfsList_nil (g : Graph) (fuel e : ℕ) : dfsList g fuel [] e = some true := rfl

theorem dfsList_foldl_none (g : Graph) (fuel e : ℕ) (l : List ℕ) :
    l.foldl
      (fun acc n =>
        match acc with
        | none => none
        | some false => some false
        | some true => dfs g fuel n e) none = none := by
  induction l with
  | nil => rfl
  | cons n rest ih => exact ih

theorem dfsList_foldl_false (g : Graph) (fuel e : ℕ) (l : List ℕ) :
    l.foldl
      (fun acc n =>
        match acc with
        | none => none
        | some false => some false
        | some true => dfs g fuel n e) (some false) = some false := by
  induction l with
  | nil => rfl
  | cons n rest ih => exact ih

theorem dfsList_cons (g : Graph) (fuel n e : ℕ) (rest : List ℕ) :
    dfsList g fuel (n :: rest) e =
      match dfs g fuel n e with
      | none => none
      | some false => some false
      | some true => dfsList g fuel rest e := by
  show List.foldl _ (dfs g fuel n e) rest = _
  cases h : dfs g fuel n e with
  | none => exact dfsList_foldl_none g fuel e rest
  | some b =>
    cases b with
    | false => exact dfsList_foldl_false g fuel e rest
    | true => rfl

theorem ranked_step {g : Graph} {rank : ℕ → ℕ} (hr : Ranked g rank) {n m : ℕ}
    (hm : m ∈ depsOf g n) : rank m < rank n := by
  by_cases hn : n < g.deps.length
  · exact hr n hn m hm
  · exfalso
    have hempty : depsOf g n = [] := by
      unfold depsOf
      exact List.getD_eq_default _ _ (Nat.le_of_not_lt hn)
    rw [hempty] at hm
    exact absurd hm (List.not_mem_nil m)

theorem dfs_terminates (g : Graph) (rank : ℕ → ℕ) (hr : Ranked g rank) :
    ∀ fuel, (∀ start e, rank start < fuel → dfs g fuel start e ≠ none) ∧
      (∀ l e, (∀ m ∈ l, rank m < fuel) → dfsList g fuel l e ≠ none) := by
  intro fuel
  induction fuel with
  | zero =>
    refine ⟨fun start e h => absurd h (Nat.not_lt_zero _), ?_⟩
    intro l e h
    cases l with
    | nil =>
      rw [dfsList_nil]
      exact Option.some_ne_none _
    | cons n rest => exact absurd (h n (List.mem_cons_self n rest)) (Nat.not_lt_zero _)
  | succ f ih =>
    have h1 : ∀ start e, rank start < f + 1 → dfs g (f + 1) start e ≠ none := by
      intro start e hlt
      rw [dfs]
      by_cases hse : start = e
      · rw [if_pos hse]
        exact Option.some_ne_none _
      · rw [if_neg hse]
        show dfsList g f (depsOf g start) e ≠ none
        apply ih.2
        intro m hm
        have := ranked_step hr hm
        omega
    refine ⟨h1, ?_⟩
    intro l
    induction l with
    | nil =>
      intro e h
      rw [dfsList_nil]
      exact Option.some_ne_none _
    | cons n rest ihl =>
      intro e h
      rw [dfsList_cons]
      cases hd : dfs g (f + 1) n e with
      | none => exact absurd hd (h1 n e (h n (List.mem_cons_self n rest)))
      | some b =>
        cases b with
        | false => exact Option.some_ne_none _
        | true => exact ihl e (fun m hm => h m (List.mem_cons_of_mem _ hm))

theorem dfsList_false_mem {g : Graph} {fuel e : ℕ} (l : List ℕ) :
    dfsList g fuel l e = some false → ∃ m ∈ l, dfs g fuel m e = some false := by
  induction l with
  | nil =>
    intro h
    rw [dfsList_nil] at h
    exact absurd h (by simp)
  | cons n rest ih =>
    intro h
    rw [dfsList_cons] at h
    split at h
    · exact absurd h (by simp)
    · next heq => exact ⟨n, List.mem_cons_self n rest, heq⟩
    · obtain ⟨m, hm, hd⟩ := ih h
      exact ⟨m, List.mem_cons_of_mem _ hm, hd⟩

theorem dfs_false_reaches (g : Graph) :
    ∀ fuel start e, dfs g fuel start e = some false → Reaches g start e := by
  intro fuel
  induction fuel with
  | zero =>
    intro start e h
    simp [dfs] at h
  | succ f ih =>
    intro start e h
    rw [dfs] at h
    by_cases hse : start = e
    · subst hse
      exact Relation.ReflTransGen.refl
    · rw [if_neg hse] at h
      have h2 : dfsList g f (depsOf g start) e = some false := h
      obtain ⟨m, hm, hd⟩ := dfsList_false_mem _ h2
      exact Relation.ReflTransGen.head hm (ih m e hd)

theorem dfsList_of_mem {g : Graph} {fuel e : ℕ} (l : List ℕ) (m : ℕ)
    (hf : dfs g fuel m e = some false) :
    (∀ x ∈ l, dfs g fuel x e ≠ none) → m ∈ l → dfsList g fuel l e = some false := by
  induction l with
  | nil =>
    intro _ hm
    exact absurd hm (List.not_mem_nil m)
  | cons n rest ih =>
    intro hall hm
    rw [dfsList_cons]
    cases hd : dfs g fuel n e with
    | none => exact absurd hd (hall n (List.mem_cons_self n rest))
    | some b =>
      cases b with
      | false => rfl
      | true =>
        have hmn : m ≠ n := by
          intro he
          rw [he, hd] at hf
          exact absurd hf (by simp)
        have hm2 : m ∈ rest := by
          cases List.mem_cons.mp hm with
          | inl h2 => exact absurd h2 hmn
          | inr h2 => exact h2
        exact ih (fun x hx => hall x (List.mem_cons_of_mem _ hx)) hm2

theorem reaches_dfs_false {g : Graph} {rank : ℕ → ℕ} (hr : Ranked g rank) :
    ∀ fuel start e, Reaches g start e → rank start < fuel →
      dfs g fuel start e = some false := by
  intro fuel
  induction fuel with
  | zero =>
    intro start e _ h
    exact absurd h (Nat.not_lt_zero _)
  | succ f ih =>
    intro start e hre hlt
    rw [dfs]
    by_cases hse : start = e
    · rw [if_pos hse]
    · rw [if_neg hse]
      rcases Relation.ReflTransGen.cases_head hre with he | ⟨m, hm, hre2⟩
      · exact absurd he hse
      · show dfsList g f (depsOf g start) e = some false
        apply dfsList_of_mem _ m
        · exact ih m e hre2 (by have := ranked_step hr hm; omega)
        · intro x hx
          exact (dfs_terminates g rank hr f).1 x e (by have := ranked_step hr hx; omega)
        · exact hm

theorem tick_terminates {α : Type} [CommRing α] [DecidableEq α]
    (g : Graph) (cfg : NodeCfg α) (B : ℕ) {rank : ℕ → ℕ} (hr : Ranked g rank) :
    ∀ fuel, (∀ root s, rank root < fuel → tickFuel g cfg B fuel root s ≠ none) ∧
      (∀ l s, (∀ m ∈ l, rank m < fuel) → tickDeps g cfg B fuel l s ≠ none) := by
  intro fuel
  induction fuel with
  | zero =>
    refine ⟨fun root s h => absurd h (Nat.not_lt_zero _), ?_⟩
    intro l s h
    cases l with
    | nil =>
      rw [tickDeps_nil]
      exact Option.some_ne_none _
    | cons d rest => exact absurd (h d (List.mem_cons_self d rest)) (Nat.not_lt_zero _)
  | succ f ih =>
    have h1 : ∀ root s, rank root < f + 1 → tickFuel g cfg B (f + 1) root s ≠ none := by
      intro root s hlt
      rw [tickFuel]
      by_cases hl : lastOf s root = s.tickCount
      · rw [if_pos hl]
        exact Option.some_ne_none _
      · rw [if_neg hl]
        dsimp only
        by_cases hp : pausedOf cfg root = true
        · rw [if_pos hp]
          exact Option.some_ne_none _
        · rw [if_neg hp]
          split
          · next heq =>
              exact absurd heq
                (ih.2 (depsOf g root) _ (fun m hm => by have := ranked_step hr hm; omega))
          · next s3 heq => exact Option.some_ne_none _
    refine ⟨h1, ?_⟩
    intro l
    induction l with
    | nil =>
      intro s h
      rw [tickDeps_nil]
      exact Option.some_ne_none _
    | cons d rest ihl =>
      intro s h
      rw [tickDeps_cons]
      cases hd : tickFuel g cfg B (f + 1) d s with
      | none => exact absurd hd (h1 d s (h d (List.mem_cons_self d rest)))
      | some s2 => exact ihl s2 (fun m hm => h m (List.mem_cons_of_mem _ hm))

/-- C4: Node::connect raises CAUSES_CYCLE, leaving the graph unchanged,
exactly when the destination node is the node itself or already a direct
or transitive dependency of it (so that the new edge would close a cycle);
otherwise it succeeds and adds exactly that one edge via makeConnection.
Stated for any topologically ranked (hence acyclic) graph with enough fuel
for the cycle check to complete. -/
theorem c4_connect_cycle_check :
    ∀ (g : Graph) (rank : ℕ → ℕ) (fuel s e : ℕ), Ranked g rank → rank s < fuel →
      (Reaches g s e → connectOp g fuel s e = some (LavError.causesCycle, g)) ∧
      (¬ Reaches g s e → connectOp g fuel s e = some (LavError.none, makeConnection g s e)) := by
  intro g rank fuel s e hr hlt
  constructor
  · intro hre
    unfold connectOp
    rw [reaches_dfs_false hr fuel s e hre hlt]
  · intro hnre
    unfold connectOp
    cases hd : dfs g fuel s e with
    | none => exact absurd hd ((dfs_terminates g rank hr fuel).1 s e hlt)
    | some b =>
      cases b with
      | false => exact absurd (dfs_false_reaches g fuel s e hd) hnre
      | true => rfl

theorem c4_witness :
    Ranked chainG (fun n => n) ∧ ((fun n : ℕ => n) 2 < 4) ∧
    ((Reaches chainG 2 0 → connectOp chainG 4 2 0 = some (LavError.causesCycle, chainG)) ∧
      (¬ Reaches chainG 2 0 →
        connectOp chainG 4 2 0 = some (LavError.none, makeConnection chainG 2 0))) ∧
    connectOp chainG 4 2 0 = some (LavError.causesCycle, chainG) ∧
    connectOp chainG 4 0 2 = some (LavError.none, makeConnection chainG 0 2) :=
  ⟨by decide, by decide,
   c4_connect_cycle_check chainG (fun n => n) 4 2 0 (by decide) (by decide),
   by decide, by decide⟩

/-- C9: on an acyclic connection graph both recursions terminate: the tick
walk rooted anywhere and the depth-first cycle check complete with enough
fuel (both recurse only through the finite dependency DAG). -/
theorem c9_acyclic_recursion_terminates :
    ∀ {α : Type} [CommRing α] [DecidableEq α] (g : Graph) (cfg : NodeCfg α) (B : ℕ),
      Acyclic g → ∀ (root e : ℕ) (s : SchedState α), ∃ fuel,
        tickFuel g cfg B fuel root s ≠ none ∧ dfs g fuel root e ≠ none := by
  intro α _ _ g cfg B hac root e s
  obtain ⟨rank, hr⟩ := hac
  refine ⟨rank root + 1, ?_, ?_⟩
  · exact (tick_terminates g cfg B hr (rank root + 1)).1 root s (Nat.lt_succ_self _)
  · exact (dfs_terminates g rank hr (rank root + 1)).1 root e (Nat.lt_succ_self _)

theorem c9_witness :
    Acyclic chainG ∧
    (∃ fuel, tickFuel chainG chainCfg 1 fuel 2 chainS0 ≠ none ∧
      dfs chainG fuel 2 0 ≠ none) ∧
    tickFuel chainG chainCfg 1 3 2 chainS0 ≠ none ∧ dfs chainG 3 2 0 ≠ none :=
  ⟨⟨fun n => n, by decide⟩,
   c9_acyclic_recursion_terminates chainG chainCfg 1 ⟨fun n => n, by decide⟩ 2 0 chainS0,
   by decide, by decide⟩

theorem delaysStage0_length (sr density : ℝ) : (delaysStage0 sr density).length = 16 := by
  simp [delaysStage0]

theorem delaysStage0_getElem (sr density : ℝ) {i : ℕ} (h : i < (delaysStage0 sr density).length) :
    (delaysStage0 sr density)[i] = lineDelay sr (baseDelayOf density) i := by
  unfold delaysStage0
  rw [List.getElem_ofFn]

theorem delaysStage0_getD (sr density : ℝ) {i : ℕ} (hi : i < 16) :
    (delaysStage0 sr density).getD i 0 = lineDelay sr (baseDelayOf density) i := by
  have h : i < (delaysStage0 sr density).length := by rw [delaysStage0_length]; exact hi
  rw [List.getD_eq_getElem _ _ h, delaysStage0_getElem]

theorem delaysStage1_length (sr density : ℝ) : (delaysStage1 sr density).length = 16 := by
  simp [delaysStage1, delaysStage0]

theorem delaysStage1_getElem (sr density : ℝ) {i : ℕ} (h : i < (delaysStage1 sr density).length) :
    (delaysStage1 sr density)[i] =
      lineDelay sr (baseDelayOf density) (if i = 0 then 15 else if i = 15 then 0 else i) := by
  have hi : i < 16 := by rw [← delaysStage1_length sr density]; exact h
  unfold delaysStage1
  rw [List.getElem_set, List.getElem_set]
  by_cases h0 : i = 0
  · subst h0
    rw [if_neg (show ¬(15 = 0) by omega), if_pos rfl,
      delaysStage0_getD sr density (show (15 : ℕ) < 16 by omega)]
    norm_num
  · by_cases h15 : i = 15
    · subst h15
      rw [if_pos rfl, delaysStage0_getD sr density (show (0 : ℕ) < 16 by omega)]
      norm_num
    · rw [if_neg (by omega), if_neg (by omega), delaysStage0_getElem]
      rw [if_neg h0, if_neg h15]

theorem delaysStage1_getD (sr density : ℝ) {i : ℕ} (hi : i < 16) :
    (delaysStage1 sr density).getD i 0 =
      lineDelay sr (baseDelayOf density) (if i = 0 then 15 else if i = 15 then 0 else i) := by
  have h : i < (delaysStage1 sr density).length := by rw [delaysStage1_length]; exact hi
  rw [List.getD_eq_getElem _ _ h, delaysStage1_getElem]

/-- C8: recompute derives the sixteen delay-line lengths in seconds as
`prime^round(log_prime(base_delay*sr))` samples divided by sr, reading the
coprime table in the order `coprimes[(i mod 4)*4 + i/4]`, swaps the delays
at positions (0,15) and (1,14), and clamps every resulting delay to at
most one second before programming the FDN: the table the code builds
(clamping inside the loop, then swapping) equals the table described by
the specification (derive, swap, clamp), and every entry is at most 1. -/
theorem c8_recompute_delay_table :
    ∀ sr density : ℝ, recomputeDelays sr density = specDelays sr density ∧
      ∀ d ∈ recomputeDelays sr density, d ≤ 1 := by
  intro sr density
  have hlen : (recomputeDelays sr density).length = 16 := by
    simp [recomputeDelays, delaysStage1, delaysStage0]
  have heq : recomputeDelays sr density = specDelays sr density := by
    apply List.ext_getElem
    · rw [hlen]
      simp [specDelays]
    · intro i h1 h2
      have hi : i < 16 := by rw [← hlen]; exact h1
      have hspec : (specDelays sr density)[i] =
          min (lineDelayRaw sr (baseDelayOf density) (swapPerm i)) 1 := by
        unfold specDelays
        rw [List.getElem_ofFn]
      rw [hspec]
      unfold recomputeDelays
      rw [List.getElem_set, List.getElem_set]
      by_cases h1i : i = 1
      · subst h1i
        simp only [if_neg (by omega : ¬(14 = 1)), if_pos rfl]
        rw [delaysStage1_getD sr density (by omega)]
        simp [swapPerm, lineDelay]
      · by_cases h14 : i = 14
        · subst h14
          rw [if_pos rfl, delaysStage1_getD sr density (by omega)]
          simp [swapPerm, lineDelay]
        · rw [if_neg (by omega), if_neg (by omega), delaysStage1_getElem]
          by_cases h0 : i = 0
          · subst h0
            simp [swapPerm, lineDelay]
          · by_cases h15 : i = 15
            · subst h15
              simp [swapPerm, lineDelay]
            · rw [if_neg h0, if_neg h15]
              unfold swapPerm
              rw [if_neg h0, if_neg h15, if_neg h1i, if_neg h14]
              rfl
  refine ⟨heq, ?_⟩
  intro d hd
  rw [heq] at hd
  unfold specDelays at hd
  rw [List.mem_ofFn] at hd
  obtain ⟨j, hj⟩ := hd
  rw [← hj]
  exact min_le_right _ _

end Libaudioverse
